import Mathlib

/-!
# Verification of the MSPDebug symbol table (src/stab.c)

The symbol table keeps two ordered indexes over the same logical entries:

* the Name Index (`st->sym`): key `struct sym_key` (a 64-byte buffer holding a
  NUL-terminated name, so at most 63 name bytes), value `address_t`;
* the Address Index (`st->addr`): key `struct addr_key` (address plus the same
  64-byte name buffer), no value payload.

Both indexes are stored in a generic B+tree (`btree.h`); the tree implementation
itself is not part of the sources, only its interface is used.  We model each
index as a list kept sorted (strictly ascending) by the corresponding comparison
function, with the interface operations (`btree_put`, `btree_get`,
`btree_delete`, `btree_select` with `BTREE_LE`/`BTREE_FIRST`/`BTREE_NEXT`,
`btree_clear`) realised as list functions.

C strings are modelled as the list of their bytes up to (and excluding) the NUL
terminator; `strcmp` is byte-lexicographic comparison of those lists, which
agrees with the C `strcmp` whenever the bytes are valid string bytes (nonzero,
at most 0xff).
-/

namespace StabModel

/-- The contents of a NUL-terminated C string: its bytes up to, and not
including, the terminator (each byte a `Nat`). -/
abbrev CStr := List Nat

/-- A byte list is a valid C-string content when every byte is nonzero and fits
in one byte.  This is automatically true of any `char *` argument passed to the
stab functions. -/
def validCStr (s : CStr) : Prop := ∀ b ∈ s, 1 ≤ b ∧ b ≤ 255

instance (s : CStr) : Decidable (validCStr s) := by
  unfold validCStr; infer_instance

/-- `strcmp` on C strings represented as byte lists.  Running off the end of a
list corresponds to reaching the NUL terminator, which compares below every
valid string byte. -/
def strcmp : CStr → CStr → Ordering
  | [], [] => .eq
  | [], _ :: _ => .lt
  | _ :: _, [] => .gt
  | a :: as, b :: bs =>
    if a < b then .lt
    else if b < a then .gt
    else strcmp as bs

/-- `sym_key_init` (src/stab.c:52): copies the text into the 64-byte `name`
buffer, truncating to 63 bytes, and NUL-terminates.  Observed as a C string the
key holds the first 63 bytes of the text. -/
def sym_key_init (text : CStr) : CStr := text.take 63

/-- An Address Index key, `struct addr_key` (src/stab.c:63): an address and a
name.  `address_t` is an unsigned integer; we model it as `Nat`. -/
abbrev AddrKey := Nat × CStr

/-- `addr_key_compare` (src/stab.c:73): compare by address first, then by
`strcmp` on the names. -/
def addr_key_compare (l r : AddrKey) : Ordering :=
  if l.1 < r.1 then .lt
  else if r.1 < l.1 then .gt
  else strcmp l.2 r.2

/-- `addr_key_init` (src/stab.c:86): sets the address and copies the text into
the 64-byte name buffer with truncation to 63 bytes, as in `sym_key_init`. -/
def addr_key_init (addr : Nat) (text : CStr) : AddrKey := (addr, text.take 63)

/-- `sym_key_compare` (src/stab.c:46) lifted to Name Index entries
(key-value pairs): compares the keys only, ignoring the stored address. -/
def sym_cmp (l r : CStr × Nat) : Ordering := strcmp l.1 r.1

section Btree

variable {α : Type} (cmp : α → α → Ordering)

/-- Modelled from the spec: the Ordered Index collaborator's
`insert(key, value) → success/failure` with upsert semantics on duplicate key
(spec §6); `btree.c` is not under `src/`.  The index is a list sorted strictly
ascending by `cmp`; insertion places the element at its ordered position,
replacing an existing element that compares equal. -/
def btree_put (x : α) : List α → List α
  | [] => [x]
  | y :: ys =>
    match cmp x y with
    | .lt => x :: y :: ys
    | .eq => x :: ys
    | .gt => y :: btree_put x ys

/-- Modelled from the spec: the Ordered Index collaborator's
`lookup(key) → value or not-found` (exact match, spec §6). -/
def btree_get (x : α) : List α → Option α
  | [] => none
  | y :: ys => if cmp x y = .eq then some y else btree_get x ys

/-- Modelled from the spec: the Ordered Index collaborator's
`delete(key) → success/not-found` (spec §6).  Returns whether an element
comparing equal to `x` was found, and the index with the first such element
removed. -/
def btree_delete (x : α) : List α → Bool × List α
  | [] => (false, [])
  | y :: ys =>
    match cmp x y with
    | .eq => (true, ys)
    | _ =>
      let r := btree_delete x ys
      (r.1, y :: r.2)

/-- Modelled from the spec: the Ordered Index collaborator's
`seek(probe_key, LESS_OR_EQUAL)` (spec §6): on a sorted index, the last (hence
greatest) element that compares `≤` the probe. -/
def btree_select_le (probe : α) : List α → Option α
  | [] => none
  | y :: ys =>
    match cmp y probe with
    | .gt => none
    | _ =>
      match btree_select_le probe ys with
      | some z => some z
      | none => some y

end Btree

/-- `btree_get` on the Name Index (key `struct sym_key`, data `address_t`):
exact lookup of a (truncated) name, returning the stored address. -/
def sym_get (skey : CStr) : List (CStr × Nat) → Option Nat
  | [] => none
  | (n, a) :: ys => if strcmp skey n = .eq then some a else sym_get skey ys

/-- `struct stab` (src/stab.c:119): the two indexes. -/
structure Stab where
  sym : List (CStr × Nat)
  addr : List AddrKey
deriving DecidableEq

/-- `stab_new` (src/stab.c:226): both indexes start empty. -/
def stab_new : Stab := ⟨[], []⟩

/-- `stab_clear` (src/stab.c:124): empties both indexes. -/
def stab_clear (_st : Stab) : Stab := ⟨[], []⟩

/-- `stab_set` (src/stab.c:130), with the underlying `btree_put` calls assumed
to succeed (allocation failure is modelled separately in `stab_set_f`):
look up the name in the Name Index; when an old address is recorded, delete the
stale `(old_addr, name)` entry from the Address Index; then insert the new
`(addr, name)` entry into the Address Index and upsert `name ↦ addr` into the
Name Index. -/
def stab_set (st : Stab) (name : CStr) (value : Nat) : Stab :=
  let skey := sym_key_init name
  let st1 : Stab :=
    match sym_get skey st.sym with
    | some old_addr =>
      { st with
        addr := (btree_delete addr_key_compare (addr_key_init old_addr skey) st.addr).2 }
    | none => st
  { sym := btree_put sym_cmp (skey, value) st1.sym
    addr := btree_put addr_key_compare (addr_key_init value name) st1.addr }

/-- The state of the table after only the first phase of `stab_set`
(src/stab.c:139-145): the stale reverse mapping, if any, has been deleted from
the Address Index and nothing has been inserted yet. -/
def stab_set_stale (st : Stab) (name : CStr) : Stab :=
  let skey := sym_key_init name
  match sym_get skey st.sym with
  | some old_addr =>
    { st with
      addr := (btree_delete addr_key_compare (addr_key_init old_addr skey) st.addr).2 }
  | none => st

/-- Modelled from the spec: `btree_put` may fail (`AllocationFailure` /
`WriteFailure`, spec §7); `btree.c` is not under `src/`.  A failure oracle
decides the outcome: `true` (and an exhausted oracle) means success, `false`
means the insert fails, returns `-1` and leaves the index unchanged. -/
def btree_put_f {α : Type} (cmp : α → α → Ordering) (x : α) (l : List α)
    (ok : Bool) : Int × List α :=
  if ok then (0, btree_put cmp x l) else (-1, l)

/-- `stab_set` (src/stab.c:130) with fallible inserts: each `btree_put`
consumes one entry of the failure oracle.  Per the C short-circuit `||`, when
the Address Index insert fails the Name Index insert is not attempted; on any
insert failure the function returns `-1` without rolling back the updates
already applied. -/
def stab_set_f (st : Stab) (name : CStr) (value : Nat) (oracle : List Bool) :
    Int × Stab :=
  let skey := sym_key_init name
  let st1 := stab_set_stale st name
  let r1 := btree_put_f addr_key_compare (addr_key_init value name) st1.addr
    (oracle.headD true)
  if r1.1 < 0 then (-1, { st1 with addr := r1.2 })
  else
    let r2 := btree_put_f sym_cmp (skey, value) st1.sym ((oracle.drop 1).headD true)
    if r2.1 < 0 then (-1, { sym := r2.2, addr := r1.2 })
    else (0, { sym := r2.2, addr := r1.2 })

/-- `stab_get` (src/stab.c:179): exact lookup of the truncated name in the
Name Index. -/
def stab_get (st : Stab) (name : CStr) : Option Nat :=
  sym_get (sym_key_init name) st.sym

/-- `stab_get` (src/stab.c:179) with the caller's output location made
explicit: takes the prior contents of `*value` and returns the return code
together with the contents of `*value` after the call (the code writes `*value`
only on success). -/
def stab_get_run (st : Stab) (name : CStr) (value0 : Nat) : Int × Nat :=
  match sym_get (sym_key_init name) st.sym with
  | none => (-1, value0)
  | some a => (0, a)

/-- The probe name built by `stab_nearest` (src/stab.c:164-167): all 64 bytes
of the `name` buffer set to `0xff` (no NUL terminator inside the buffer). -/
def probe_name : CStr := List.replicate 64 255

/-- `stab_nearest` (src/stab.c:158): seek the last Address Index entry `≤` the
probe `(addr, 0xff…ff)`; on success return the found name and
`offset = addr - found_addr`. -/
def stab_nearest (st : Stab) (addr : Nat) : Option (CStr × Nat) :=
  match btree_select_le addr_key_compare (addr, probe_name) st.addr with
  | some k => some (k.2, addr - k.1)
  | none => none

/-- `stab_nearest` (src/stab.c:158) with the caller's output locations made
explicit: takes the prior contents of the `ret_name` buffer (as a C string) and
of `*ret_offset`, and the buffer capacity `max_len`.  On success the name is
copied with `strncpy` and then forcibly terminated at `max_len - 1`, so the
buffer holds the first `max_len - 1` bytes of the found name; on failure
nothing is written. -/
def stab_nearest_run (st : Stab) (addr : Nat) (ret_name0 : CStr)
    (max_len : Nat) (ret_offset0 : Nat) : Int × CStr × Nat :=
  match btree_select_le addr_key_compare (addr, probe_name) st.addr with
  | some k => (0, k.2.take (max_len - 1), addr - k.1)
  | none => (-1, ret_name0, ret_offset0)

/-- `stab_del` (src/stab.c:192), also exposing the success flags of the two
underlying `btree_delete` calls (the C code ignores both return values):
`none` when the name is absent from the Name Index; otherwise the table with
the Name Index entry and the `(recorded address, name)` Address Index entry
removed, together with the two flags. -/
def stab_del_r (st : Stab) (name : CStr) : Option (Stab × Bool × Bool) :=
  let skey := sym_key_init name
  match sym_get skey st.sym with
  | none => none
  | some value =>
    let akey := addr_key_init value name
    let rs := btree_delete sym_cmp (skey, value) st.sym
    let ra := btree_delete addr_key_compare akey st.addr
    some (⟨rs.2, ra.2⟩, rs.1, ra.1)

/-- `stab_del` (src/stab.c:192) as observed by the caller: `none` is the `-1`
(not-found) result, `some st2` is success with resulting table `st2`. -/
def stab_del (st : Stab) (name : CStr) : Option Stab :=
  (stab_del_r st name).map Prod.fst

/-- `stab_enum` (src/stab.c:209) instrumented with the list of entries handed
to the callback, in traversal order (`BTREE_FIRST` then repeated `BTREE_NEXT`
walks the Address Index in ascending key order, i.e. the sorted list itself).
Returns the C return code and the invocation log; on the first callback
returning a negative value the traversal stops. -/
def stab_enum_log (cb : CStr → Nat → Int) : List AddrKey → Int × List AddrKey
  | [] => (0, [])
  | k :: rest =>
    if cb k.2 k.1 < 0 then (-1, [k])
    else
      let r := stab_enum_log cb rest
      (r.1, k :: r.2)

/-- `stab_enum` (src/stab.c:209): the return code alone. -/
def stab_enum (st : Stab) (cb : CStr → Nat → Int) : Int :=
  (stab_enum_log cb st.addr).1

/-- A valid stored key: valid string bytes and at most 63 of them (the 64-byte
buffers always hold a NUL within bounds). -/
def validKey (s : CStr) : Prop := validCStr s ∧ s.length ≤ 63

instance (s : CStr) : Decidable (validKey s) := by
  unfold validKey; infer_instance

/-- Well-formedness of a table: both indexes are sorted strictly ascending by
their comparison functions (the B+tree keeps its keys ordered and duplicate
free) and every stored name is a valid key. -/
def WF (st : Stab) : Prop :=
  st.sym.Pairwise (fun x y => sym_cmp x y = .lt) ∧
  st.addr.Pairwise (fun x y => addr_key_compare x y = .lt) ∧
  (∀ p ∈ st.sym, validKey p.1) ∧
  (∀ p ∈ st.addr, validKey p.2)

instance (st : Stab) : Decidable (WF st) := by
  unfold WF; infer_instance

/-- Cross-index consistency: the two indexes carry exactly the same set of
logical entries — every Name Index entry `name ↦ addr` has its Address Index
entry `(addr, name)` and conversely. -/
def Inv (st : Stab) : Prop :=
  (∀ p ∈ st.sym, (p.2, p.1) ∈ st.addr) ∧
  (∀ p ∈ st.addr, (p.2, p.1) ∈ st.sym)

instance (st : Stab) : Decidable (Inv st) := by
  unfold Inv; infer_instance

/-- Tables reachable through the public interface: a fresh table, mutated by
any sequence of `stab_set` (with a C-string name), successful `stab_del`, and
`stab_clear`. -/
inductive Reachable : Stab → Prop
  | new : Reachable stab_new
  | set (st : Stab) (name : CStr) (value : Nat) :
      Reachable st → validCStr name → Reachable (stab_set st name value)
  | del (st st2 : Stab) (name : CStr) :
      Reachable st → stab_del st name = some st2 → Reachable st2
  | clear (st : Stab) : Reachable st → Reachable (stab_clear st)

/-! ## Properties of the comparison functions -/

theorem strcmp_cons (a b : Nat) (as bs : CStr) :
    strcmp (a :: as) (b :: bs) =
      if a < b then .lt else if b < a then .gt else strcmp as bs := rfl

theorem strcmp_eq_iff : ∀ a b : CStr, strcmp a b = .eq ↔ a = b := by
  intro a
  induction a with
  | nil =>
    intro b
    cases b with
    | nil => simp [strcmp]
    | cons y ys =>
      constructor
      · intro hc; simp [strcmp] at hc
      · intro hc; simp at hc
  | cons x xs ih =>
    intro b
    cases b with
    | nil =>
      constructor
      · intro hc; simp [strcmp] at hc
      · intro hc; simp at hc
    | cons y ys =>
      rw [strcmp_cons]
      rcases Nat.lt_trichotomy x y with h | h | h
      · rw [if_pos h]
        constructor
        · intro hc; simp at hc
        · intro hc
          injection hc with h1 h2
          omega
      · subst h
        rw [if_neg (lt_irrefl x), if_neg (lt_irrefl x), ih ys]
        constructor
        · intro hc; rw [hc]
        · intro hc
          cases hc
          rfl
      · have hxy : ¬ x < y := by omega
        rw [if_neg hxy, if_pos h]
        constructor
        · intro hc; simp at hc
        · intro hc
          injection hc with h1 h2
          omega

theorem strcmp_refl (a : CStr) : strcmp a a = .eq := (strcmp_eq_iff a a).mpr rfl

theorem strcmp_gt_iff : ∀ a b : CStr, strcmp a b = .gt ↔ strcmp b a = .lt := by
  intro a
  induction a with
  | nil =>
    intro b
    cases b with
    | nil => simp [strcmp]
    | cons y ys => simp [strcmp]
  | cons x xs ih =>
    intro b
    cases b with
    | nil => simp [strcmp]
    | cons y ys =>
      rw [strcmp_cons, strcmp_cons]
      rcases Nat.lt_trichotomy x y with h | h | h
      · have hyx : ¬ y < x := by omega
        rw [if_pos h, if_neg hyx, if_pos h]
        simp
      · subst h
        rw [if_neg (lt_irrefl x), if_neg (lt_irrefl x), if_neg (lt_irrefl x),
          if_neg (lt_irrefl x)]
        exact ih ys
      · have hxy : ¬ x < y := by omega
        rw [if_neg hxy, if_pos h, if_pos h]
        simp

theorem strcmp_lt_iff : ∀ a b : CStr, strcmp a b = .lt ↔ List.Lex (· < ·) a b := by
  intro a
  induction a with
  | nil =>
    intro b
    cases b with
    | nil =>
      constructor
      · intro hc; simp [strcmp] at hc
      · intro hc; cases hc
    | cons y ys =>
      constructor
      · intro _; exact List.Lex.nil
      · intro _; rfl
  | cons x xs ih =>
    intro b
    cases b with
    | nil =>
      constructor
      · intro hc; simp [strcmp] at hc
      · intro hc; cases hc
    | cons y ys =>
      rw [strcmp_cons]
      rcases Nat.lt_trichotomy x y with h | h | h
      · rw [if_pos h]
        constructor
        · intro _; exact List.Lex.rel h
        · intro _; rfl
      · subst h
        rw [if_neg (lt_irrefl x), if_neg (lt_irrefl x), ih ys]
        constructor
        · intro hc; exact List.Lex.cons hc
        · intro hc
          cases hc with
          | cons h2 => exact h2
          | rel h2 => exact absurd h2 (lt_irrefl x)
      · have hxy : ¬ x < y := by omega
        rw [if_neg hxy, if_pos h]
        constructor
        · intro hc; simp at hc
        · intro hc
          cases hc with
          | cons h2 => omega
          | rel h2 => omega

theorem strcmp_lt_trans {a b c : CStr} (h1 : strcmp a b = .lt)
    (h2 : strcmp b c = .lt) : strcmp a c = .lt := by
  rw [strcmp_lt_iff] at h1 h2 ⊢
  exact Trans.trans h1 h2

/-- The probe name built by `stab_nearest` compares strictly above every valid
key: all its 64 bytes are `0xff`, while a valid key has at most 63 bytes, each
at most `0xff`. -/
theorem strcmp_lt_probe {n : CStr} (h : validKey n) : strcmp n probe_name = .lt := by
  have main : ∀ (n : CStr) (k : Nat), validCStr n → n.length < k →
      strcmp n (List.replicate k 255) = .lt := by
    intro n
    induction n with
    | nil =>
      intro k _ hk
      match k, hk with
      | k2 + 1, _ => simp [List.replicate_succ, strcmp]
    | cons b bs ih =>
      intro k hv hk
      match k, hk with
      | k2 + 1, hk =>
        rw [List.replicate_succ, strcmp_cons]
        have hb := hv b (by simp)
        by_cases hlt : b < 255
        · simp [hlt]
        · have hb255 : b = 255 := by omega
          subst hb255
          rw [if_neg hlt, if_neg hlt]
          have hlen : bs.length < k2 := by
            have hlc : bs.length + 1 < k2 + 1 := by simpa using hk
            omega
          exact ih k2 (fun x hx => hv x (by simp [hx])) hlen
  exact main n 64 h.1 (by have := h.2; omega)

theorem sym_cmp_swap (a b : CStr × Nat) : sym_cmp a b = .gt ↔ sym_cmp b a = .lt :=
  strcmp_gt_iff a.1 b.1

theorem sym_cmp_trans {a b c : CStr × Nat} (h1 : sym_cmp a b = .lt)
    (h2 : sym_cmp b c = .lt) : sym_cmp a c = .lt :=
  strcmp_lt_trans h1 h2

theorem sym_cmp_eq_congr {a b : CStr × Nat} (h : sym_cmp a b = .eq) (c : CStr × Nat) :
    sym_cmp a c = sym_cmp b c := by
  have h2 : a.1 = b.1 := (strcmp_eq_iff a.1 b.1).mp h
  unfold sym_cmp
  rw [h2]

theorem addr_key_compare_eq_iff (a b : AddrKey) :
    addr_key_compare a b = .eq ↔ a = b := by
  unfold addr_key_compare
  rcases Nat.lt_trichotomy a.1 b.1 with h | h | h
  · rw [if_pos h]
    constructor
    · intro hc; simp at hc
    · intro hc; rw [hc] at h; exact absurd h (lt_irrefl _)
  · have h1 : ¬ a.1 < b.1 := by omega
    have h2 : ¬ b.1 < a.1 := by omega
    rw [if_neg h1, if_neg h2, strcmp_eq_iff]
    constructor
    · intro hc; exact Prod.ext_iff.mpr ⟨h, hc⟩
    · intro hc; rw [hc]
  · have h1 : ¬ a.1 < b.1 := by omega
    rw [if_neg h1, if_pos h]
    constructor
    · intro hc; simp at hc
    · intro hc; rw [hc] at h; exact absurd h (lt_irrefl _)

theorem addr_key_compare_refl (a : AddrKey) : addr_key_compare a a = .eq :=
  (addr_key_compare_eq_iff a a).mpr rfl

theorem addr_key_compare_swap (a b : AddrKey) :
    addr_key_compare a b = .gt ↔ addr_key_compare b a = .lt := by
  unfold addr_key_compare
  rcases Nat.lt_trichotomy a.1 b.1 with h | h | h
  · have h2 : ¬ b.1 < a.1 := by omega
    rw [if_pos h, if_neg h2, if_pos h]
    simp
  · have h1 : ¬ a.1 < b.1 := by omega
    have h2 : ¬ b.1 < a.1 := by omega
    rw [if_neg h1, if_neg h2, if_neg h2, if_neg h1]
    exact strcmp_gt_iff a.2 b.2
  · have h1 : ¬ a.1 < b.1 := by omega
    rw [if_neg h1, if_pos h, if_pos h]
    simp

theorem addr_key_compare_lt_iff (a b : AddrKey) :
    addr_key_compare a b = .lt ↔ a.1 < b.1 ∨ (a.1 = b.1 ∧ strcmp a.2 b.2 = .lt) := by
  unfold addr_key_compare
  rcases Nat.lt_trichotomy a.1 b.1 with h | h | h
  · rw [if_pos h]
    simp [h]
  · have h1 : ¬ a.1 < b.1 := by omega
    have h2 : ¬ b.1 < a.1 := by omega
    rw [if_neg h1, if_neg h2]
    simp [h, h1]
  · have h1 : ¬ a.1 < b.1 := by omega
    rw [if_neg h1, if_pos h]
    constructor
    · intro hc; simp at hc
    · intro hc
      rcases hc with hc | ⟨hc, _⟩ <;> omega

theorem addr_key_compare_trans {a b c : AddrKey} (h1 : addr_key_compare a b = .lt)
    (h2 : addr_key_compare b c = .lt) : addr_key_compare a c = .lt := by
  rw [addr_key_compare_lt_iff] at h1 h2 ⊢
  rcases h1 with h1 | ⟨h1e, h1s⟩
  · rcases h2 with h2 | ⟨h2e, _⟩
    · exact Or.inl (by omega)
    · exact Or.inl (by omega)
  · rcases h2 with h2 | ⟨h2e, h2s⟩
    · exact Or.inl (by omega)
    · exact Or.inr ⟨by omega, strcmp_lt_trans h1s h2s⟩

theorem addr_key_compare_eq_congr {a b : AddrKey} (h : addr_key_compare a b = .eq)
    (c : AddrKey) : addr_key_compare a c = addr_key_compare b c := by
  rw [(addr_key_compare_eq_iff a b).mp h]

/-! ## Generic sorted-index lemmas -/

section BtreeLemmas

variable {α : Type} {cmp : α → α → Ordering}

theorem mem_btree_put_self (x : α) (l : List α) : x ∈ btree_put cmp x l := by
  induction l with
  | nil => simp [btree_put]
  | cons y ys ih =>
    cases h : cmp x y with
    | lt => simp [btree_put, h]
    | eq => simp [btree_put, h]
    | gt => simp [btree_put, h, ih]

theorem mem_of_mem_btree_put {z x : α} {l : List α}
    (hz : z ∈ btree_put cmp x l) : z = x ∨ z ∈ l := by
  induction l with
  | nil =>
    simp [btree_put] at hz
    exact Or.inl hz
  | cons y ys ih =>
    cases h : cmp x y with
    | lt =>
      simp [btree_put, h] at hz
      rcases hz with hz | hz | hz
      · exact Or.inl hz
      · exact Or.inr (by simp [hz])
      · exact Or.inr (by simp [hz])
    | eq =>
      simp [btree_put, h] at hz
      rcases hz with hz | hz
      · exact Or.inl hz
      · exact Or.inr (by simp [hz])
    | gt =>
      simp [btree_put, h] at hz
      rcases hz with hz | hz
      · exact Or.inr (by simp [hz])
      · rcases ih hz with h2 | h2
        · exact Or.inl h2
        · exact Or.inr (by simp [h2])

theorem mem_btree_put_of_mem {z x : α} {l : List α}
    (hz : z ∈ l) (hne : cmp x z ≠ .eq) : z ∈ btree_put cmp x l := by
  induction l with
  | nil => cases hz
  | cons y ys ih =>
    cases h : cmp x y with
    | lt =>
      simp [btree_put, h]
      rcases List.mem_cons.mp hz with hz2 | hz2
      · exact Or.inr (Or.inl hz2)
      · exact Or.inr (Or.inr hz2)
    | eq =>
      simp [btree_put, h]
      rcases List.mem_cons.mp hz with hz2 | hz2
      · subst hz2
        exact absurd h hne
      · exact Or.inr hz2
    | gt =>
      simp [btree_put, h]
      rcases List.mem_cons.mp hz with hz2 | hz2
      · exact Or.inl hz2
      · exact Or.inr (ih hz2)

theorem btree_put_all_lt {x : α} {l : List α}
    (hall : ∀ z ∈ l, cmp x z = .lt) : btree_put cmp x l = x :: l := by
  cases l with
  | nil => rfl
  | cons y ys =>
    have h := hall y (by simp)
    simp [btree_put, h]

theorem btree_put_idem (hrefl : ∀ a, cmp a a = .eq) (x : α) (l : List α) :
    btree_put cmp x (btree_put cmp x l) = btree_put cmp x l := by
  induction l with
  | nil => simp [btree_put, hrefl x]
  | cons y ys ih =>
    cases h : cmp x y with
    | lt => simp [btree_put, h, hrefl x]
    | eq => simp [btree_put, h, hrefl x]
    | gt => simp [btree_put, h, ih]

theorem sorted_btree_put
    (hswap : ∀ a b, cmp a b = .gt ↔ cmp b a = .lt)
    (htrans : ∀ a b c, cmp a b = .lt → cmp b c = .lt → cmp a c = .lt)
    (heqc : ∀ a b c, cmp a b = .eq → cmp a c = cmp b c)
    (x : α) {l : List α} (hs : l.Pairwise fun a b => cmp a b = .lt) :
    (btree_put cmp x l).Pairwise fun a b => cmp a b = .lt := by
  induction l with
  | nil => simp [btree_put]
  | cons y ys ih =>
    rw [List.pairwise_cons] at hs
    obtain ⟨hy, hys⟩ := hs
    cases h : cmp x y with
    | lt =>
      simp only [btree_put, h]
      rw [List.pairwise_cons]
      constructor
      · intro z hz
        rcases List.mem_cons.mp hz with hz2 | hz2
        · rw [hz2]; exact h
        · exact htrans x y z h (hy z hz2)
      · rw [List.pairwise_cons]
        exact ⟨hy, hys⟩
    | eq =>
      simp only [btree_put, h]
      rw [List.pairwise_cons]
      constructor
      · intro z hz
        rw [heqc x y z h]
        exact hy z hz
      · exact hys
    | gt =>
      simp only [btree_put, h]
      rw [List.pairwise_cons]
      constructor
      · intro z hz
        rcases mem_of_mem_btree_put hz with hz2 | hz2
        · rw [hz2]
          exact (hswap x y).mp h
        · exact hy z hz2
      · exact ih hys

theorem btree_put_eq_unique
    (hswap : ∀ a b, cmp a b = .gt ↔ cmp b a = .lt)
    (htrans : ∀ a b c, cmp a b = .lt → cmp b c = .lt → cmp a c = .lt)
    (heqc : ∀ a b c, cmp a b = .eq → cmp a c = cmp b c)
    {x z : α} {l : List α} (hs : l.Pairwise fun a b => cmp a b = .lt)
    (hz : z ∈ btree_put cmp x l) (heq : cmp x z = .eq) : z = x := by
  induction l with
  | nil =>
    simp [btree_put] at hz
    exact hz
  | cons y ys ih =>
    rw [List.pairwise_cons] at hs
    obtain ⟨hy, hys⟩ := hs
    cases h : cmp x y with
    | lt =>
      simp [btree_put, h] at hz
      rcases hz with hz | hz | hz
      · exact hz
      · rw [hz] at heq
        rw [heq] at h
        cases h
      · have h2 : cmp x z = .lt := htrans x y z h (hy z hz)
        rw [heq] at h2
        cases h2
    | eq =>
      simp [btree_put, h] at hz
      rcases hz with hz | hz
      · exact hz
      · have h2 : cmp x z = cmp y z := heqc x y z h
        have h3 : cmp y z = .lt := hy z hz
        rw [h3] at h2
        rw [heq] at h2
        cases h2
    | gt =>
      simp [btree_put, h] at hz
      rcases hz with hz | hz
      · rw [hz] at heq
        rw [heq] at h
        cases h
      · exact ih hys hz

theorem btree_delete_sublist (x : α) (l : List α) :
    (btree_delete cmp x l).2.Sublist l := by
  induction l with
  | nil => simp [btree_delete]
  | cons y ys ih =>
    cases h : cmp x y with
    | lt =>
      simp only [btree_delete, h]
      exact ih.cons₂ y
    | eq =>
      simp only [btree_delete, h]
      exact (List.sublist_cons_self y ys)
    | gt =>
      simp only [btree_delete, h]
      exact ih.cons₂ y

theorem mem_of_mem_btree_delete {z x : α} {l : List α}
    (hz : z ∈ (btree_delete cmp x l).2) : z ∈ l :=
  (btree_delete_sublist x l).mem hz

theorem mem_btree_delete_of_mem {z x : α} {l : List α}
    (hz : z ∈ l) (hne : cmp x z ≠ .eq) : z ∈ (btree_delete cmp x l).2 := by
  induction l with
  | nil => cases hz
  | cons y ys ih =>
    cases h : cmp x y with
    | lt =>
      simp only [btree_delete, h]
      rcases List.mem_cons.mp hz with hz2 | hz2
      · simp [hz2]
      · simp [ih hz2]
    | eq =>
      simp only [btree_delete, h]
      rcases List.mem_cons.mp hz with hz2 | hz2
      · subst hz2
        exact absurd h hne
      · exact hz2
    | gt =>
      simp only [btree_delete, h]
      rcases List.mem_cons.mp hz with hz2 | hz2
      · simp [hz2]
      · simp [ih hz2]

theorem not_eq_of_mem_btree_delete
    (hrefl : ∀ a, cmp a a = .eq)
    (heqc : ∀ a b c, cmp a b = .eq → cmp a c = cmp b c)
    {x z : α} {l : List α} (hs : l.Pairwise fun a b => cmp a b = .lt)
    (hz : z ∈ (btree_delete cmp x l).2) : cmp x z ≠ .eq := by
  induction l with
  | nil => simp [btree_delete] at hz
  | cons y ys ih =>
    rw [List.pairwise_cons] at hs
    obtain ⟨hy, hys⟩ := hs
    cases h : cmp x y with
    | lt =>
      simp only [btree_delete, h] at hz
      rcases List.mem_cons.mp hz with hz2 | hz2
      · subst hz2
        intro hc
        rw [hc] at h
        cases h
      · exact ih hys hz2
    | eq =>
      simp only [btree_delete, h] at hz
      intro hc
      have h2 : cmp y z = cmp x z := by
        have h3 : cmp y x = .eq := by
          have h4 := heqc x y y h
          rw [hrefl y] at h4
          have h5 := heqc x y x h
          rw [hrefl x] at h5
          exact h5.symm
        exact (heqc y x z h3).trans rfl
      rw [hc] at h2
      have h3 : cmp y z = .lt := hy z hz
      rw [h3] at h2
      cases h2
    | gt =>
      simp only [btree_delete, h] at hz
      rcases List.mem_cons.mp hz with hz2 | hz2
      · subst hz2
        intro hc
        rw [hc] at h
        cases h
      · exact ih hys hz2

theorem btree_put_delete_of_mem
    (hrefl : ∀ a, cmp a a = .eq)
    (hswap : ∀ a b, cmp a b = .gt ↔ cmp b a = .lt)
    {x : α} {l : List α} (hs : l.Pairwise fun a b => cmp a b = .lt)
    (hx : x ∈ l) : btree_put cmp x (btree_delete cmp x l).2 = l := by
  induction l with
  | nil => cases hx
  | cons y ys ih =>
    rw [List.pairwise_cons] at hs
    obtain ⟨hy, hys⟩ := hs
    cases h : cmp x y with
    | lt =>
      exfalso
      rcases List.mem_cons.mp hx with hx2 | hx2
      · subst hx2
        rw [hrefl x] at h
        cases h
      · have h2 : cmp y x = .lt := hy x hx2
        have h3 : cmp x y = .gt := (hswap x y).mpr h2
        rw [h3] at h
        cases h
    | eq =>
      have hxy : x = y := by
        rcases List.mem_cons.mp hx with hx2 | hx2
        · exact hx2
        · exfalso
          have h2 : cmp y x = .lt := hy x hx2
          have h3 : cmp x y = .gt := (hswap x y).mpr h2
          rw [h3] at h
          cases h
      subst hxy
      simp only [btree_delete, h]
      exact btree_put_all_lt hy
    | gt =>
      have hx2 : x ∈ ys := by
        rcases List.mem_cons.mp hx with hx3 | hx3
        · subst hx3
          rw [hrefl x] at h
          cases h
        · exact hx3
      simp only [btree_delete, h, btree_put]
      rw [ih hys hx2]

theorem btree_select_le_mem {p y : α} {l : List α}
    (h : btree_select_le cmp p l = some y) : y ∈ l := by
  induction l with
  | nil => simp [btree_select_le] at h
  | cons z zs ih =>
    cases hc : cmp z p with
    | gt => simp [btree_select_le, hc] at h
    | lt =>
      simp only [btree_select_le, hc] at h
      cases h2 : btree_select_le cmp p zs with
      | some w =>
        rw [h2] at h
        injection h with h3
        subst h3
        exact List.mem_cons_of_mem z (ih h2)
      | none =>
        rw [h2] at h
        injection h with h3
        subst h3
        exact List.mem_cons_self z zs
    | eq =>
      simp only [btree_select_le, hc] at h
      cases h2 : btree_select_le cmp p zs with
      | some w =>
        rw [h2] at h
        injection h with h3
        subst h3
        exact List.mem_cons_of_mem z (ih h2)
      | none =>
        rw [h2] at h
        injection h with h3
        subst h3
        exact List.mem_cons_self z zs

theorem btree_select_le_not_gt {p y : α} {l : List α}
    (h : btree_select_le cmp p l = some y) : cmp y p ≠ .gt := by
  induction l with
  | nil => simp [btree_select_le] at h
  | cons z zs ih =>
    cases hc : cmp z p with
    | gt => simp [btree_select_le, hc] at h
    | lt =>
      simp only [btree_select_le, hc] at h
      cases h2 : btree_select_le cmp p zs with
      | some w =>
        rw [h2] at h
        injection h with h3
        subst h3
        exact ih h2
      | none =>
        rw [h2] at h
        injection h with h3
        subst h3
        intro hc2
        rw [hc] at hc2
        cases hc2
    | eq =>
      simp only [btree_select_le, hc] at h
      cases h2 : btree_select_le cmp p zs with
      | some w =>
        rw [h2] at h
        injection h with h3
        subst h3
        exact ih h2
      | none =>
        rw [h2] at h
        injection h with h3
        subst h3
        intro hc2
        rw [hc] at hc2
        cases hc2

theorem btree_select_le_none_iff
    (hswap : ∀ a b, cmp a b = .gt ↔ cmp b a = .lt)
    (htrans : ∀ a b c, cmp a b = .lt → cmp b c = .lt → cmp a c = .lt)
    {p : α} {l : List α} (hs : l.Pairwise fun a b => cmp a b = .lt) :
    btree_select_le cmp p l = none ↔ ∀ z ∈ l, cmp z p = .gt := by
  induction l with
  | nil => simp [btree_select_le]
  | cons z zs ih =>
    rw [List.pairwise_cons] at hs
    obtain ⟨hz, hzs⟩ := hs
    cases hc : cmp z p with
    | gt =>
      simp only [btree_select_le, hc]
      constructor
      · intro _ w hw
        rcases List.mem_cons.mp hw with hw2 | hw2
        · rw [hw2]; exact hc
        · have h2 : cmp p z = .lt := (hswap z p).mp hc
          have h3 : cmp z w = .lt := hz w hw2
          have h4 : cmp p w = .lt := htrans p z w h2 h3
          exact (hswap w p).mpr h4
      · intro _; trivial
    | lt =>
      simp only [btree_select_le, hc]
      constructor
      · intro h
        cases h2 : btree_select_le cmp p zs with
        | some w => rw [h2] at h; cases h
        | none => rw [h2] at h; cases h
      · intro h
        have h2 := h z (List.mem_cons_self z zs)
        rw [hc] at h2
        cases h2
    | eq =>
      simp only [btree_select_le, hc]
      constructor
      · intro h
        cases h2 : btree_select_le cmp p zs with
        | some w => rw [h2] at h; cases h
        | none => rw [h2] at h; cases h
      · intro h
        have h2 := h z (List.mem_cons_self z zs)
        rw [hc] at h2
        cases h2

theorem btree_select_le_max
    (hswap : ∀ a b, cmp a b = .gt ↔ cmp b a = .lt)
    (htrans : ∀ a b c, cmp a b = .lt → cmp b c = .lt → cmp a c = .lt)
    {p y : α} {l : List α} (hs : l.Pairwise fun a b => cmp a b = .lt)
    (h : btree_select_le cmp p l = some y) :
    ∀ z ∈ l, cmp z p ≠ .gt → z = y ∨ cmp z y = .lt := by
  induction l with
  | nil => simp [btree_select_le] at h
  | cons w ws ih =>
    rw [List.pairwise_cons] at hs
    obtain ⟨hw, hws⟩ := hs
    intro z hzmem hzle
    cases hc : cmp w p with
    | gt => simp [btree_select_le, hc] at h
    | lt =>
      simp only [btree_select_le, hc] at h
      cases h2 : btree_select_le cmp p ws with
      | some v =>
        rw [h2] at h
        injection h with h3
        subst h3
        rcases List.mem_cons.mp hzmem with hz2 | hz2
        · subst hz2
          exact Or.inr (hw v (btree_select_le_mem h2))
        · exact ih hws h2 z hz2 hzle
      | none =>
        rw [h2] at h
        injection h with h3
        subst h3
        rcases List.mem_cons.mp hzmem with hz2 | hz2
        · exact Or.inl hz2
        · exfalso
          have h4 := (btree_select_le_none_iff hswap htrans hws).mp h2 z hz2
          exact hzle h4
    | eq =>
      simp only [btree_select_le, hc] at h
      cases h2 : btree_select_le cmp p ws with
      | some v =>
        rw [h2] at h
        injection h with h3
        subst h3
        rcases List.mem_cons.mp hzmem with hz2 | hz2
        · subst hz2
          exact Or.inr (hw v (btree_select_le_mem h2))
        · exact ih hws h2 z hz2 hzle
      | none =>
        rw [h2] at h
        injection h with h3
        subst h3
        rcases List.mem_cons.mp hzmem with hz2 | hz2
        · exact Or.inl hz2
        · exfalso
          have h4 := (btree_select_le_none_iff hswap htrans hws).mp h2 z hz2
          exact hzle h4

end BtreeLemmas

/-! ## Name Index lemmas -/

theorem sym_cmp_refl (a : CStr × Nat) : sym_cmp a a = .eq := strcmp_refl a.1

theorem sym_get_cons (k n : CStr) (a : Nat) (ys : List (CStr × Nat)) :
    sym_get k ((n, a) :: ys) = if strcmp k n = .eq then some a else sym_get k ys := rfl

theorem sym_get_mem {k : CStr} {v : Nat} {l : List (CStr × Nat)}
    (h : sym_get k l = some v) : (k, v) ∈ l := by
  induction l with
  | nil => simp [sym_get] at h
  | cons y ys ih =>
    obtain ⟨n, a⟩ := y
    rw [sym_get_cons] at h
    by_cases hc : strcmp k n = .eq
    · rw [if_pos hc] at h
      injection h with h2
      have hkn : k = n := (strcmp_eq_iff k n).mp hc
      subst hkn
      subst h2
      exact List.mem_cons_self _ _
    · rw [if_neg hc] at h
      exact List.mem_cons_of_mem _ (ih h)

theorem sym_get_none_iff {k : CStr} {l : List (CStr × Nat)} :
    sym_get k l = none ↔ ∀ p ∈ l, p.1 ≠ k := by
  induction l with
  | nil => simp [sym_get]
  | cons y ys ih =>
    obtain ⟨n, a⟩ := y
    rw [sym_get_cons]
    by_cases hc : strcmp k n = .eq
    · rw [if_pos hc]
      have hkn : k = n := (strcmp_eq_iff k n).mp hc
      subst hkn
      constructor
      · intro h; simp at h
      · intro hall
        exact absurd rfl (hall (k, a) (List.mem_cons_self _ _))
    · rw [if_neg hc, ih]
      constructor
      · intro h p hp
        rcases List.mem_cons.mp hp with h2 | h2
        · rw [h2]
          intro hnk
          apply hc
          have hnk2 : n = k := hnk
          rw [hnk2]
          exact strcmp_refl k
        · exact h p h2
      · intro h p hp
        exact h p (List.mem_cons_of_mem _ hp)

theorem sym_mem_get {k : CStr} {v : Nat} {l : List (CStr × Nat)}
    (hs : l.Pairwise fun a b => sym_cmp a b = .lt)
    (hm : (k, v) ∈ l) : sym_get k l = some v := by
  induction l with
  | nil => cases hm
  | cons y ys ih =>
    obtain ⟨n, a⟩ := y
    rw [List.pairwise_cons] at hs
    obtain ⟨hy, hys⟩ := hs
    rw [sym_get_cons]
    rcases List.mem_cons.mp hm with h2 | h2
    · injection h2 with h3 h4
      subst h3
      subst h4
      rw [if_pos (strcmp_refl k)]
    · by_cases hc : strcmp k n = .eq
      · exfalso
        have hkn : k = n := (strcmp_eq_iff k n).mp hc
        subst hkn
        have h3 := hy (k, v) h2
        have h4 : sym_cmp (k, a) (k, v) = strcmp k k := rfl
        rw [h4, strcmp_refl k] at h3
        cases h3
      · rw [if_neg hc]
        exact ih hys h2

theorem sym_key_unique {k : CStr} {a b : Nat} {l : List (CStr × Nat)}
    (hs : l.Pairwise fun x y => sym_cmp x y = .lt)
    (h1 : (k, a) ∈ l) (h2 : (k, b) ∈ l) : a = b := by
  have e1 := sym_mem_get hs h1
  have e2 := sym_mem_get hs h2
  rw [e1] at e2
  exact Option.some.inj e2

theorem sym_get_put_self (k : CStr) (v : Nat) (l : List (CStr × Nat)) :
    sym_get k (btree_put sym_cmp (k, v) l) = some v := by
  induction l with
  | nil =>
    show sym_get k [(k, v)] = some v
    rw [sym_get_cons, if_pos (strcmp_refl k)]
  | cons y ys ih =>
    obtain ⟨n, a⟩ := y
    cases h : sym_cmp (k, v) (n, a) with
    | lt =>
      simp only [btree_put, h]
      rw [sym_get_cons, if_pos (strcmp_refl k)]
    | eq =>
      simp only [btree_put, h]
      rw [sym_get_cons, if_pos (strcmp_refl k)]
    | gt =>
      simp only [btree_put, h]
      have h2 : strcmp k n = .gt := h
      rw [sym_get_cons, if_neg (by rw [h2]; intro hc; cases hc)]
      exact ih

theorem sym_get_put_other {k2 k : CStr} (v : Nat) (l : List (CStr × Nat))
    (hne : strcmp k2 k ≠ .eq) :
    sym_get k2 (btree_put sym_cmp (k, v) l) = sym_get k2 l := by
  induction l with
  | nil =>
    show sym_get k2 [(k, v)] = sym_get k2 []
    rw [sym_get_cons, if_neg hne]
  | cons y ys ih =>
    obtain ⟨n, a⟩ := y
    cases h : sym_cmp (k, v) (n, a) with
    | lt =>
      simp only [btree_put, h]
      rw [sym_get_cons, if_neg hne, sym_get_cons]
    | eq =>
      have hkn : k = n := (strcmp_eq_iff k n).mp h
      simp only [btree_put, h]
      rw [sym_get_cons, if_neg hne, sym_get_cons, if_neg (by rw [← hkn]; exact hne)]
    | gt =>
      simp only [btree_put, h]
      rw [sym_get_cons, sym_get_cons]
      by_cases hc : strcmp k2 n = .eq
      · rw [if_pos hc, if_pos hc]
      · rw [if_neg hc, if_neg hc]
        exact ih

/-- After deleting the entry of key `k` from a sorted Name Index, `k` is no
longer found. -/
theorem sym_get_delete_self {k : CStr} {v0 : Nat} {l : List (CStr × Nat)}
    (hs : l.Pairwise fun a b => sym_cmp a b = .lt) :
    sym_get k ((btree_delete sym_cmp (k, v0) l).2) = none := by
  rw [sym_get_none_iff]
  intro p hp
  have h2 := not_eq_of_mem_btree_delete sym_cmp_refl
    (fun a b c h => sym_cmp_eq_congr h c) hs hp
  intro hc
  apply h2
  show strcmp k p.1 = .eq
  rw [hc]
  exact strcmp_refl k

/-! ## Key encoding lemmas -/

theorem sym_key_init_idem (name : CStr) :
    sym_key_init (sym_key_init name) = sym_key_init name := by
  unfold sym_key_init
  rw [List.take_take]
  simp

theorem sym_key_init_length (name : CStr) : (sym_key_init name).length ≤ 63 :=
  List.length_take_le 63 name

theorem addr_key_init_eq (v : Nat) (name : CStr) :
    addr_key_init v name = (v, sym_key_init name) := rfl

theorem addr_key_init_skey (v : Nat) (name : CStr) :
    addr_key_init v (sym_key_init name) = (v, sym_key_init name) := by
  rw [addr_key_init_eq, sym_key_init_idem]

theorem validKey_sym_key_init {name : CStr} (h : validCStr name) :
    validKey (sym_key_init name) :=
  ⟨fun b hb => h b (List.take_subset 63 name hb), sym_key_init_length name⟩

/-! ## Law bundles for the two comparison functions -/

theorem scm_trans3 : ∀ a b c : CStr × Nat,
    sym_cmp a b = .lt → sym_cmp b c = .lt → sym_cmp a c = .lt :=
  fun _ _ _ h1 h2 => sym_cmp_trans h1 h2

theorem scm_eqc : ∀ a b c : CStr × Nat,
    sym_cmp a b = .eq → sym_cmp a c = sym_cmp b c :=
  fun _ _ c h => sym_cmp_eq_congr h c

theorem akc_trans3 : ∀ a b c : AddrKey,
    addr_key_compare a b = .lt → addr_key_compare b c = .lt →
      addr_key_compare a c = .lt :=
  fun _ _ _ h1 h2 => addr_key_compare_trans h1 h2

theorem akc_eqc : ∀ a b c : AddrKey,
    addr_key_compare a b = .eq → addr_key_compare a c = addr_key_compare b c :=
  fun _ _ c h => addr_key_compare_eq_congr h c

theorem addr_sorted_nodup {l : List AddrKey}
    (hs : l.Pairwise fun a b => addr_key_compare a b = .lt) : l.Nodup := by
  apply hs.imp
  intro a b h
  intro hab
  rw [hab, addr_key_compare_refl] at h
  cases h

/-! ## Unfolding equations for stab_set -/

theorem stab_set_sym_eq (st : Stab) (name : CStr) (v : Nat) :
    (stab_set st name v).sym = btree_put sym_cmp (sym_key_init name, v) st.sym := by
  unfold stab_set
  cases h : sym_get (sym_key_init name) st.sym <;> simp [h]

theorem stab_set_addr_eq (st : Stab) (name : CStr) (v : Nat) :
    (stab_set st name v).addr =
      btree_put addr_key_compare (v, sym_key_init name) (stab_set_stale st name).addr := by
  unfold stab_set stab_set_stale
  cases h : sym_get (sym_key_init name) st.sym <;> simp [h, addr_key_init_eq]

theorem stab_set_stale_sym (st : Stab) (name : CStr) :
    (stab_set_stale st name).sym = st.sym := by
  unfold stab_set_stale
  cases h : sym_get (sym_key_init name) st.sym <;> simp [h]

theorem stab_set_stale_some {st : Stab} {name : CStr} {old : Nat}
    (h : sym_get (sym_key_init name) st.sym = some old) :
    (stab_set_stale st name).addr =
      (btree_delete addr_key_compare (old, sym_key_init name) st.addr).2 := by
  unfold stab_set_stale
  simp [h, addr_key_init_skey]

theorem stab_set_stale_none {st : Stab} {name : CStr}
    (h : sym_get (sym_key_init name) st.sym = none) :
    (stab_set_stale st name).addr = st.addr := by
  unfold stab_set_stale
  simp [h]

theorem stab_set_stale_addr_sublist (st : Stab) (name : CStr) :
    (stab_set_stale st name).addr.Sublist st.addr := by
  cases h : sym_get (sym_key_init name) st.sym with
  | some old =>
    rw [stab_set_stale_some h]
    exact btree_delete_sublist _ _
  | none =>
    rw [stab_set_stale_none h]

/-! ## Preservation of well-formedness -/

theorem WF_stab_set {st : Stab} (hwf : WF st) {name : CStr}
    (hn : validCStr name) (v : Nat) : WF (stab_set st name v) := by
  obtain ⟨hs1, hs2, hv1, hv2⟩ := hwf
  refine ⟨?_, ?_, ?_, ?_⟩
  · rw [stab_set_sym_eq]
    exact sorted_btree_put sym_cmp_swap scm_trans3 scm_eqc _ hs1
  · rw [stab_set_addr_eq]
    exact sorted_btree_put addr_key_compare_swap akc_trans3 akc_eqc _
      (List.Pairwise.sublist (stab_set_stale_addr_sublist st name) hs2)
  · rw [stab_set_sym_eq]
    intro p hp
    rcases mem_of_mem_btree_put hp with h2 | h2
    · rw [h2]
      exact validKey_sym_key_init hn
    · exact hv1 p h2
  · rw [stab_set_addr_eq]
    intro p hp
    rcases mem_of_mem_btree_put hp with h2 | h2
    · rw [h2]
      exact validKey_sym_key_init hn
    · exact hv2 p ((stab_set_stale_addr_sublist st name).subset h2)

/-- Key fact: the Name Index after `stab_set` holds exactly `(skey, v)` at key
`skey`. -/
theorem stab_set_sym_key_unique {st : Stab} (hs1 : st.sym.Pairwise fun a b => sym_cmp a b = .lt)
    {name : CStr} {v : Nat} {p : CStr × Nat}
    (hp : p ∈ (stab_set st name v).sym)
    (hk : strcmp (sym_key_init name) p.1 = .eq) : p = (sym_key_init name, v) := by
  rw [stab_set_sym_eq] at hp
  have h2 : sym_cmp (sym_key_init name, v) p = .eq := hk
  exact btree_put_eq_unique sym_cmp_swap scm_trans3 scm_eqc hs1 hp h2

theorem Inv_stab_set {st : Stab} (hwf : WF st) (hinv : Inv st)
    (name : CStr) (v : Nat) : Inv (stab_set st name v) := by
  obtain ⟨hs1, hs2, _, _⟩ := hwf
  obtain ⟨hfwd, hbwd⟩ := hinv
  have hstale_sorted : (stab_set_stale st name).addr.Pairwise
      fun a b => addr_key_compare a b = .lt :=
    List.Pairwise.sublist (stab_set_stale_addr_sublist st name) hs2
  constructor
  · -- forward: every Name Index entry has its Address Index entry
    intro p hp
    by_cases hk : strcmp (sym_key_init name) p.1 = .eq
    · have hpeq : p = (sym_key_init name, v) := stab_set_sym_key_unique hs1 hp hk
      rw [hpeq]
      rw [stab_set_addr_eq]
      exact mem_btree_put_self _ _
    · have hpmem : p ∈ st.sym := by
        rw [stab_set_sym_eq] at hp
        rcases mem_of_mem_btree_put hp with h2 | h2
        · exfalso
          apply hk
          rw [h2]
          exact strcmp_refl _
        · exact h2
      have haddr : (p.2, p.1) ∈ st.addr := hfwd p hpmem
      rw [stab_set_addr_eq]
      apply mem_btree_put_of_mem
      · -- survives the stale delete, if any
        cases hget : sym_get (sym_key_init name) st.sym with
        | some old =>
          rw [stab_set_stale_some hget]
          apply mem_btree_delete_of_mem haddr
          intro hc
          rw [addr_key_compare_eq_iff] at hc
          apply hk
          have h3 : sym_key_init name = p.1 := congrArg Prod.snd hc
          rw [h3]
          exact strcmp_refl _
        | none =>
          rw [stab_set_stale_none hget]
          exact haddr
      · intro hc
        rw [addr_key_compare_eq_iff] at hc
        apply hk
        have h3 : sym_key_init name = p.1 := congrArg Prod.snd hc
        rw [h3]
        exact strcmp_refl _
  · -- backward: every Address Index entry has its Name Index entry
    intro q hq
    rw [stab_set_addr_eq] at hq
    by_cases hk : addr_key_compare (v, sym_key_init name) q = .eq
    · have hqeq : q = (v, sym_key_init name) :=
        btree_put_eq_unique addr_key_compare_swap akc_trans3 akc_eqc
          hstale_sorted hq hk
      rw [hqeq]
      rw [stab_set_sym_eq]
      exact mem_btree_put_self _ _
    · have hqmem : q ∈ (stab_set_stale st name).addr := by
        rcases mem_of_mem_btree_put hq with h2 | h2
        · exfalso
          apply hk
          rw [h2]
          exact addr_key_compare_refl _
        · exact h2
      have hqst : q ∈ st.addr := (stab_set_stale_addr_sublist st name).subset hqmem
      have hsym : (q.2, q.1) ∈ st.sym := hbwd q hqst
      by_cases hq2 : strcmp (sym_key_init name) q.2 = .eq
      · exfalso
        have hkq : sym_key_init name = q.2 := (strcmp_eq_iff _ _).mp hq2
        cases hget : sym_get (sym_key_init name) st.sym with
        | some old =>
          -- then q would be the deleted stale entry
          have hgq : sym_get (sym_key_init name) st.sym = some q.1 := by
            rw [hkq]
            exact sym_mem_get hs1 hsym
          have hq1 : q.1 = old := by
            rw [hget] at hgq
            exact (Option.some.inj hgq).symm
          have hqis : q = (old, sym_key_init name) := by
            rw [Prod.ext_iff]
            exact ⟨hq1, hkq.symm⟩
          rw [stab_set_stale_some hget] at hqmem
          have h5 := not_eq_of_mem_btree_delete addr_key_compare_refl akc_eqc
            hs2 hqmem
          apply h5
          rw [hqis]
          exact addr_key_compare_refl _
        | none =>
          have h5 := sym_get_none_iff.mp hget (q.2, q.1) hsym
          exact h5 hkq.symm
      · rw [stab_set_sym_eq]
        apply mem_btree_put_of_mem hsym
        intro hc
        exact hq2 hc

/-! ## Unfolding equations for stab_del -/

theorem stab_del_eq_none {st : Stab} {name : CStr} :
    stab_del st name = none ↔ sym_get (sym_key_init name) st.sym = none := by
  unfold stab_del stab_del_r
  cases h : sym_get (sym_key_init name) st.sym <;> simp [h]

theorem stab_del_eq_some {st st2 : Stab} {name : CStr} :
    stab_del st name = some st2 ↔
      ∃ v, sym_get (sym_key_init name) st.sym = some v ∧
        st2 = ⟨(btree_delete sym_cmp (sym_key_init name, v) st.sym).2,
               (btree_delete addr_key_compare (v, sym_key_init name) st.addr).2⟩ := by
  unfold stab_del stab_del_r
  cases h : sym_get (sym_key_init name) st.sym with
  | none => simp [h]
  | some v => simp [h, addr_key_init_eq, eq_comm]

/-! ## Preservation of WF and Inv by stab_del -/

theorem WF_stab_del {st st2 : Stab} (hwf : WF st) {name : CStr}
    (h : stab_del st name = some st2) : WF st2 := by
  obtain ⟨v, hget, hst2⟩ := stab_del_eq_some.mp h
  obtain ⟨hs1, hs2, hv1, hv2⟩ := hwf
  subst hst2
  refine ⟨?_, ?_, ?_, ?_⟩
  · exact List.Pairwise.sublist (btree_delete_sublist _ _) hs1
  · exact List.Pairwise.sublist (btree_delete_sublist _ _) hs2
  · intro p hp
    exact hv1 p ((btree_delete_sublist _ _).subset hp)
  · intro p hp
    exact hv2 p ((btree_delete_sublist _ _).subset hp)

theorem Inv_stab_del {st st2 : Stab} (hwf : WF st) (hinv : Inv st) {name : CStr}
    (h : stab_del st name = some st2) : Inv st2 := by
  obtain ⟨v, hget, hst2⟩ := stab_del_eq_some.mp h
  obtain ⟨hs1, hs2, _, _⟩ := hwf
  obtain ⟨hfwd, hbwd⟩ := hinv
  subst hst2
  constructor
  · intro p hp
    have hpmem : p ∈ st.sym := (btree_delete_sublist _ _).subset hp
    have hne := not_eq_of_mem_btree_delete sym_cmp_refl scm_eqc hs1 hp
    apply mem_btree_delete_of_mem (hfwd p hpmem)
    intro hc
    rw [addr_key_compare_eq_iff] at hc
    apply hne
    show strcmp (sym_key_init name) p.1 = .eq
    have h3 : sym_key_init name = p.1 := congrArg Prod.snd hc
    rw [h3]
    exact strcmp_refl _
  · intro q hq
    have hqmem : q ∈ st.addr := (btree_delete_sublist _ _).subset hq
    have hne := not_eq_of_mem_btree_delete addr_key_compare_refl akc_eqc hs2 hq
    have hsym : (q.2, q.1) ∈ st.sym := hbwd q hqmem
    apply mem_btree_delete_of_mem hsym
    intro hc
    have hkq : sym_key_init name = q.2 := (strcmp_eq_iff _ _).mp hc
    have hgq : sym_get (sym_key_init name) st.sym = some q.1 := by
      rw [hkq]
      exact sym_mem_get hs1 hsym
    have hq1 : q.1 = v := by
      rw [hget] at hgq
      exact (Option.some.inj hgq).symm
    apply hne
    rw [addr_key_compare_eq_iff, Prod.ext_iff]
    exact ⟨hq1.symm, hkq⟩

/-- Every reachable table is well-formed and cross-index consistent. -/
theorem WF_Inv_Reachable {st : Stab} (h : Reachable st) : WF st ∧ Inv st := by
  induction h with
  | new => exact ⟨by decide, by decide⟩
  | set st name value hr hn ih =>
    exact ⟨WF_stab_set ih.1 hn value, Inv_stab_set ih.1 ih.2 name value⟩
  | del st st2 name hr hdel ih =>
    exact ⟨WF_stab_del ih.1 hdel, Inv_stab_del ih.1 ih.2 hdel⟩
  | clear st hr ih =>
    constructor
    · show WF ⟨[], []⟩
      decide
    · show Inv ⟨[], []⟩
      decide

/-! ## Helper facts about the nearest-search probe -/

/-- An Address Index entry with a valid name compares above the probe
`(q, 0xff…ff)` exactly when its address exceeds `q`: the probe name dominates
every valid name, so the name field never decides against the probe. -/
theorem addr_gt_probe_iff {z : AddrKey} (hz : validKey z.2) (q : Nat) :
    addr_key_compare z (q, probe_name) = .gt ↔ q < z.1 := by
  rw [addr_key_compare_swap, addr_key_compare_lt_iff]
  constructor
  · rintro (h | ⟨he, hs⟩)
    · exact h
    · exfalso
      have h1 : strcmp z.2 probe_name = .lt := strcmp_lt_probe hz
      have h2 : strcmp probe_name z.2 = .gt := (strcmp_gt_iff _ _).mpr h1
      rw [hs] at h2
      cases h2
  · intro h
    exact Or.inl h

/-- A successful `stab_nearest` result comes from an Address Index entry. -/
theorem stab_nearest_some_mem {st : Stab} {q : Nat} {r : CStr × Nat}
    (h : stab_nearest st q = some r) :
    ∃ a, (a, r.1) ∈ st.addr ∧ r.2 = q - a := by
  unfold stab_nearest at h
  cases hsel : btree_select_le addr_key_compare (q, probe_name) st.addr with
  | none => rw [hsel] at h; cases h
  | some y =>
    rw [hsel] at h
    injection h with h2
    refine ⟨y.1, ?_, ?_⟩
    · rw [← h2]
      exact btree_select_le_mem hsel
    · rw [← h2]

/-! ## The claims -/

theorem countP_eq_one_of_nodup_mem {α : Type} [DecidableEq α] {l : List α}
    (hnd : l.Nodup) {x : α} (hx : x ∈ l) :
    l.countP (fun p => decide (p = x)) = 1 := by
  induction l with
  | nil => cases hx
  | cons y ys ih =>
    rw [List.nodup_cons] at hnd
    rw [List.countP_cons]
    rcases List.mem_cons.mp hx with h | h
    · subst h
      have h0 : ys.countP (fun p => decide (p = x)) = 0 := by
        rw [List.countP_eq_zero]
        intro a ha
        simp only [decide_eq_true_eq]
        intro hax
        rw [hax] at ha
        exact hnd.1 ha
      rw [h0]
      simp
    · have h1 : ys.countP (fun p => decide (p = x)) = 1 := ih hnd.2 h
      rw [h1]
      have hyx : ¬ y = x := by
        intro hc
        rw [hc] at hnd
        exact hnd.1 h
      simp [hyx]

/-- C1: after every successfully completed public mutation (`stab_set`,
`stab_del`, `stab_clear`) starting from a fresh table, for every name `n`
present in the Name Index with address `a`, exactly one entry `(a, n)` exists
in the Address Index, and no Address Index entry with name `n` exists at any
other address. -/
theorem spec_C1 (st : Stab) (h : Reachable st) (n : CStr) (a : Nat)
    (hget : sym_get n st.sym = some a) :
    st.addr.countP (fun p => decide (p = (a, n))) = 1 ∧
      ∀ p ∈ st.addr, p.2 = n → p.1 = a := by
  obtain ⟨hwf, hinv⟩ := WF_Inv_Reachable h
  obtain ⟨hs1, hs2, _, _⟩ := hwf
  obtain ⟨hfwd, hbwd⟩ := hinv
  have hmem : (n, a) ∈ st.sym := sym_get_mem hget
  have haddr : (a, n) ∈ st.addr := hfwd (n, a) hmem
  constructor
  · exact countP_eq_one_of_nodup_mem (addr_sorted_nodup hs2) haddr
  · intro p hp hpn
    have hsym := hbwd p hp
    have h2 : (n, p.1) ∈ st.sym := by
      rw [← hpn]
      exact hsym
    exact sym_key_unique hs1 h2 hmem

theorem spec_C1_witness :
    (stab_set stab_new [97] 5).addr.countP (fun p => decide (p = (5, [97]))) = 1 ∧
      ∀ p ∈ (stab_set stab_new [97] 5).addr, p.2 = [97] → p.1 = 5 :=
  spec_C1 (stab_set stab_new [97] 5)
    (Reachable.set stab_new [97] 5 Reachable.new (by decide)) [97] 5 (by decide)

/-- C2: on a table with at least one stored address `≤ q`, `stab_nearest q`
succeeds and returns the name of an entry whose address `a` is the greatest
stored address `≤ q`, with offset `q - a`; among the names stored at `a` the
returned one sorts last byte-lexically. -/
theorem spec_C2 (st : Stab) (q : Nat) (hwf : WF st)
    (hex : ∃ p ∈ st.addr, p.1 ≤ q) :
    ∃ a n, stab_nearest st q = some (n, q - a) ∧
      (a, n) ∈ st.addr ∧ a ≤ q ∧
      (∀ p ∈ st.addr, p.1 ≤ q → p.1 ≤ a) ∧
      (∀ m, (a, m) ∈ st.addr → ¬ List.Lex (· < ·) n m) := by
  obtain ⟨_, hs2, _, hv2⟩ := hwf
  cases hsel : btree_select_le addr_key_compare (q, probe_name) st.addr with
  | none =>
    exfalso
    obtain ⟨p, hp, hple⟩ := hex
    have h2 := (btree_select_le_none_iff addr_key_compare_swap akc_trans3
      hs2).mp hsel p hp
    rw [addr_gt_probe_iff (hv2 p hp) q] at h2
    omega
  | some y =>
    have hymem : y ∈ st.addr := btree_select_le_mem hsel
    have hyle : y.1 ≤ q := by
      have h2 := btree_select_le_not_gt hsel
      by_contra hcon
      apply h2
      rw [addr_gt_probe_iff (hv2 y hymem) q]
      omega
    refine ⟨y.1, y.2, ?_, ?_, hyle, ?_, ?_⟩
    · unfold stab_nearest
      rw [hsel]
    · exact hymem
    · intro p hp hple
      have hpng : addr_key_compare p (q, probe_name) ≠ .gt := by
        intro hc
        rw [addr_gt_probe_iff (hv2 p hp) q] at hc
        omega
      rcases btree_select_le_max addr_key_compare_swap akc_trans3 hs2 hsel
        p hp hpng with h2 | h2
      · rw [h2]
      · rw [addr_key_compare_lt_iff] at h2
        rcases h2 with h2 | ⟨h2, _⟩ <;> omega
    · intro m hm
      have hmng : addr_key_compare (y.1, m) (q, probe_name) ≠ .gt := by
        intro hc
        rw [addr_gt_probe_iff (hv2 (y.1, m) hm) q] at hc
        have hc2 : q < y.1 := hc
        omega
      rcases btree_select_le_max addr_key_compare_swap akc_trans3 hs2 hsel
        (y.1, m) hm hmng with h2 | h2
      · intro hlex
        have hm2 : m = y.2 := congrArg Prod.snd h2
        rw [hm2] at hlex
        rw [← strcmp_lt_iff] at hlex
        rw [strcmp_refl] at hlex
        cases hlex
      · rw [addr_key_compare_lt_iff] at h2
        rcases h2 with h2 | ⟨_, h2⟩
        · exfalso
          have hc2 : y.1 < y.1 := h2
          omega
        · intro hlex
          rw [← strcmp_lt_iff] at hlex
          have h3 : strcmp m y.2 = .gt := (strcmp_gt_iff _ _).mpr hlex
          simp at h2
          rw [h3] at h2
          cases h2

theorem spec_C2_witness :
    ∃ a n, stab_nearest (stab_set (stab_set stab_new [97] 256) [98] 256) 256
        = some (n, 256 - a) ∧
      (a, n) ∈ (stab_set (stab_set stab_new [97] 256) [98] 256).addr ∧ a ≤ 256 ∧
      (∀ p ∈ (stab_set (stab_set stab_new [97] 256) [98] 256).addr,
        p.1 ≤ 256 → p.1 ≤ a) ∧
      (∀ m, (a, m) ∈ (stab_set (stab_set stab_new [97] 256) [98] 256).addr →
        ¬ List.Lex (· < ·) n m) :=
  spec_C2 (stab_set (stab_set stab_new [97] 256) [98] 256) 256 (by decide)
    ⟨(256, [97]), by decide, by decide⟩

/-- C8: `stab_nearest q` reports not-found exactly when the Address Index is
empty or `q` is strictly below every stored address. -/
theorem spec_C8 (st : Stab) (q : Nat) (hwf : WF st) :
    stab_nearest st q = none ↔ (st.addr = [] ∨ ∀ p ∈ st.addr, q < p.1) := by
  obtain ⟨_, hs2, _, hv2⟩ := hwf
  have hmain : stab_nearest st q = none ↔ ∀ p ∈ st.addr, q < p.1 := by
    unfold stab_nearest
    cases hsel : btree_select_le addr_key_compare (q, probe_name) st.addr with
    | none =>
      simp only []
      constructor
      · intro _ p hp
        have h2 := (btree_select_le_none_iff addr_key_compare_swap akc_trans3
          hs2).mp hsel p hp
        rw [addr_gt_probe_iff (hv2 p hp) q] at h2
        exact h2
      · intro _
        trivial
    | some y =>
      simp only []
      constructor
      · intro h
        cases h
      · intro h
        exfalso
        have hymem : y ∈ st.addr := btree_select_le_mem hsel
        have h2 := btree_select_le_not_gt hsel
        apply h2
        rw [addr_gt_probe_iff (hv2 y hymem) q]
        exact h y hymem
  rw [hmain]
  constructor
  · intro h
    exact Or.inr h
  · rintro (h | h)
    · rw [h]
      intro p hp
      cases hp
    · exact h

theorem spec_C8_witness :
    (stab_nearest (stab_set stab_new [98] 256) 255 = none ↔
      ((stab_set stab_new [98] 256).addr = [] ∨
        ∀ p ∈ (stab_set stab_new [98] 256).addr, 255 < p.1)) :=
  spec_C8 (stab_set stab_new [98] 256) 255 (by decide)

/-- C3 counterexample: the claim quantifies over all addresses `a1`, `a2`, but
when `a1 = a2` the second `stab_set` deletes and re-inserts the same Address
Index entry, so `(a1, n)` is still present afterwards, contradicting "the
Address Index no longer contains the entry `(a1, n)`".  Shown at
`n = "foo"`, `a1 = a2 = 0x1000`. -/
theorem spec_C3_counterexample :
    stab_get (stab_set (stab_set stab_new [102, 111, 111] 4096)
        [102, 111, 111] 4096) [102, 111, 111] = some 4096 ∧
      (4096, [102, 111, 111]) ∈
        (stab_set (stab_set stab_new [102, 111, 111] 4096)
          [102, 111, 111] 4096).addr := by
  decide

/-- C3 (amended): after a successful `set(n, a1)`, `get(n)` returns `a1`; and
after `set(n, a1)` followed by a successful `set(n, a2)` with `a2 ≠ a1`,
`get(n)` returns `a2` and the Address Index no longer contains the entry
`(a1, n)` (with `n` stored in truncated form). -/
theorem spec_C3 (st : Stab) (n : CStr) (a1 a2 : Nat) (hwf : WF st)
    (hv : validCStr n) :
    stab_get (stab_set st n a1) n = some a1 ∧
    (a1 ≠ a2 →
      stab_get (stab_set (stab_set st n a1) n a2) n = some a2 ∧
      (a1, sym_key_init n) ∉ (stab_set (stab_set st n a1) n a2).addr) := by
  have hget1 : stab_get (stab_set st n a1) n = some a1 := by
    show sym_get (sym_key_init n) (stab_set st n a1).sym = some a1
    rw [stab_set_sym_eq]
    exact sym_get_put_self _ _ _
  refine ⟨hget1, ?_⟩
  intro hne
  obtain ⟨_, h1a, _, _⟩ := WF_stab_set hwf hv a1
  constructor
  · show sym_get (sym_key_init n) (stab_set (stab_set st n a1) n a2).sym = some a2
    rw [stab_set_sym_eq]
    exact sym_get_put_self _ _ _
  · intro hmem
    rw [stab_set_addr_eq] at hmem
    rcases mem_of_mem_btree_put hmem with h2 | h2
    · have h3 : a1 = a2 := congrArg Prod.fst h2
      exact hne h3
    · rw [stab_set_stale_some hget1] at h2
      have h4 := not_eq_of_mem_btree_delete addr_key_compare_refl akc_eqc
        h1a h2
      apply h4
      exact addr_key_compare_refl _

theorem spec_C3_witness :
    stab_get (stab_set stab_new [102, 111, 111] 4096) [102, 111, 111]
        = some 4096 ∧
      stab_get (stab_set (stab_set stab_new [102, 111, 111] 4096)
        [102, 111, 111] 8192) [102, 111, 111] = some 8192 ∧
      (4096, sym_key_init [102, 111, 111]) ∉
        (stab_set (stab_set stab_new [102, 111, 111] 4096)
          [102, 111, 111] 8192).addr := by
  have h := spec_C3 stab_new [102, 111, 111] 4096 8192 (by decide) (by decide)
  exact ⟨h.1, (h.2 (by decide)).1, (h.2 (by decide)).2⟩

/-- C4: `stab_del name` reports not-found exactly when `name` is absent from
the Name Index; on success it removes the Name Index entry and the
`(recorded address, name)` Address Index entry, so a subsequent `stab_get`
of the name reports not-found and no subsequent `stab_nearest` resolves to
that name. -/
theorem spec_C4 (st : Stab) (name : CStr) (hwf : WF st) (hinv : Inv st) :
    (stab_del st name = none ↔ stab_get st name = none) ∧
    (∀ st2, stab_del st name = some st2 →
      stab_get st2 name = none ∧
      (∀ a0, stab_get st name = some a0 →
        (a0, sym_key_init name) ∉ st2.addr) ∧
      (∀ q r, stab_nearest st2 q = some r → r.1 ≠ sym_key_init name)) := by
  obtain ⟨hs1, hs2, _, _⟩ := hwf
  obtain ⟨hfwd, hbwd⟩ := hinv
  constructor
  · exact stab_del_eq_none
  · intro st2 hdel
    obtain ⟨v, hget, hst2⟩ := stab_del_eq_some.mp hdel
    refine ⟨?_, ?_, ?_⟩
    · show sym_get (sym_key_init name) st2.sym = none
      rw [hst2]
      exact sym_get_delete_self hs1
    · intro a0 hga
      have ha0 : a0 = v := by
        have h2 : sym_get (sym_key_init name) st.sym = some a0 := hga
        rw [hget] at h2
        exact (Option.some.inj h2).symm
      subst ha0
      intro hmem
      rw [hst2] at hmem
      have h4 := not_eq_of_mem_btree_delete addr_key_compare_refl akc_eqc
        hs2 hmem
      apply h4
      exact addr_key_compare_refl _
    · intro q r hnear
      obtain ⟨a0, hmem, _⟩ := stab_nearest_some_mem hnear
      intro hcon
      rw [hcon] at hmem
      rw [hst2] at hmem
      -- (a0, skey) survived the delete of (v, skey); but the Name Index maps
      -- skey to v, so a0 = v, contradiction with the delete
      have hmem0 : (a0, sym_key_init name) ∈ st.addr :=
        (btree_delete_sublist _ _).subset hmem
      have hsym : (sym_key_init name, a0) ∈ st.sym := hbwd _ hmem0
      have hga : sym_get (sym_key_init name) st.sym = some a0 :=
        sym_mem_get hs1 hsym
      have ha0 : a0 = v := by
        rw [hget] at hga
        exact (Option.some.inj hga).symm
      subst ha0
      have h4 := not_eq_of_mem_btree_delete addr_key_compare_refl akc_eqc
        hs2 hmem
      apply h4
      exact addr_key_compare_refl _

theorem spec_C4_witness :
    (stab_del (stab_set stab_new [120] 16) [120] = none ↔
      stab_get (stab_set stab_new [120] 16) [120] = none) ∧
    (∀ st2, stab_del (stab_set stab_new [120] 16) [120] = some st2 →
      stab_get st2 [120] = none ∧
      (∀ a0, stab_get (stab_set stab_new [120] 16) [120] = some a0 →
        (a0, sym_key_init [120]) ∉ st2.addr) ∧
      (∀ q r, stab_nearest st2 q = some r → r.1 ≠ sym_key_init [120])) :=
  spec_C4 (stab_set stab_new [120] 16) [120] (by decide) (by decide)

/-- C6: a name longer than 63 bytes is stored truncated to its first 63 bytes
(without any error: `stab_set` is total), consistently in both indexes:
`stab_get` on the truncated form returns the stored address, the original
untruncated name is not a distinct key (its lookup is the same lookup), and no
stored key equals the untruncated name. -/
theorem spec_C6 (st : Stab) (n : CStr) (a : Nat) (hwf : WF st)
    (hv : validCStr n) (hlen : 63 < n.length) :
    stab_get (stab_set st n a) (n.take 63) = some a ∧
    stab_get (stab_set st n a) n = stab_get (stab_set st n a) (n.take 63) ∧
    (a, n.take 63) ∈ (stab_set st n a).addr ∧
    (∀ p ∈ (stab_set st n a).sym, p.1 ≠ n) ∧
    (∀ p ∈ (stab_set st n a).addr, p.2 ≠ n) := by
  obtain ⟨_, _, hv1, hv2⟩ := WF_stab_set hwf hv a
  have hkey : sym_key_init (n.take 63) = sym_key_init n := by
    show sym_key_init (sym_key_init n) = sym_key_init n
    exact sym_key_init_idem n
  refine ⟨?_, ?_, ?_, ?_, ?_⟩
  · show sym_get (sym_key_init (n.take 63)) (stab_set st n a).sym = some a
    rw [hkey, stab_set_sym_eq]
    exact sym_get_put_self _ _ _
  · show sym_get (sym_key_init n) (stab_set st n a).sym
        = sym_get (sym_key_init (n.take 63)) (stab_set st n a).sym
    rw [hkey]
  · rw [stab_set_addr_eq]
    exact mem_btree_put_self _ _
  · intro p hp
    intro hc
    have h2 : p.1.length ≤ 63 := (hv1 p hp).2
    rw [hc] at h2
    omega
  · intro p hp
    intro hc
    have h2 : p.2.length ≤ 63 := (hv2 p hp).2
    rw [hc] at h2
    omega

theorem spec_C6_witness :
    stab_get (stab_set stab_new (List.replicate 70 65) 5)
        ((List.replicate 70 65).take 63) = some 5 ∧
    stab_get (stab_set stab_new (List.replicate 70 65) 5) (List.replicate 70 65)
        = stab_get (stab_set stab_new (List.replicate 70 65) 5)
            ((List.replicate 70 65).take 63) ∧
    (5, (List.replicate 70 65).take 63)
        ∈ (stab_set stab_new (List.replicate 70 65) 5).addr ∧
    (∀ p ∈ (stab_set stab_new (List.replicate 70 65) 5).sym,
      p.1 ≠ List.replicate 70 65) ∧
    (∀ p ∈ (stab_set stab_new (List.replicate 70 65) 5).addr,
      p.2 ≠ List.replicate 70 65) :=
  spec_C6 stab_new (List.replicate 70 65) 5 (by decide) (by decide) (by decide)

/-! ## Enumeration lemmas -/

theorem stab_enum_log_all_ok {cb : CStr → Nat → Int} :
    ∀ l : List AddrKey, (∀ p ∈ l, ¬ cb p.2 p.1 < 0) →
      stab_enum_log cb l = (0, l) := by
  intro l
  induction l with
  | nil => intro _; rfl
  | cons k rest ih =>
    intro h
    have hk : ¬ cb k.2 k.1 < 0 := h k (List.mem_cons_self _ _)
    unfold stab_enum_log
    rw [if_neg hk, ih (fun p hp => h p (List.mem_cons_of_mem _ hp))]

theorem stab_enum_log_fail {cb : CStr → Nat → Int} :
    ∀ (pre : List AddrKey) (e : AddrKey) (post : List AddrKey),
      (∀ p ∈ pre, ¬ cb p.2 p.1 < 0) → cb e.2 e.1 < 0 →
      stab_enum_log cb (pre ++ e :: post) = (-1, pre ++ [e]) := by
  intro pre
  induction pre with
  | nil =>
    intro e post _ he
    show stab_enum_log cb (e :: post) = (-1, [e])
    unfold stab_enum_log
    rw [if_pos he]
  | cons k rest ih =>
    intro e post h he
    have hk : ¬ cb k.2 k.1 < 0 := h k (List.mem_cons_self _ _)
    show stab_enum_log cb (k :: (rest ++ e :: post)) = _
    unfold stab_enum_log
    rw [if_neg hk, ih e post (fun p hp => h p (List.mem_cons_of_mem _ hp)) he]
    rfl

/-- C5: `stab_enum` hands every stored `(name, address)` entry to the visitor
exactly once, in ascending address order with ties broken by name
byte-lexically ascending; when the visitor returns a negative value for some
entry, enumeration stops with failure, having delivered exactly the entries
preceding the failing one (the failing entry itself receives the last
callback). -/
theorem spec_C5 (st : Stab) (cb : CStr → Nat → Int) (hwf : WF st) :
    ((∀ p ∈ st.addr, ¬ cb p.2 p.1 < 0) → stab_enum_log cb st.addr = (0, st.addr)) ∧
    (∀ pre e post, st.addr = pre ++ e :: post →
      (∀ p ∈ pre, ¬ cb p.2 p.1 < 0) → cb e.2 e.1 < 0 →
      stab_enum_log cb st.addr = (-1, pre ++ [e])) ∧
    st.addr.Pairwise (fun x y =>
      x.1 < y.1 ∨ (x.1 = y.1 ∧ List.Lex (· < ·) x.2 y.2)) ∧
    st.addr.Nodup := by
  obtain ⟨_, hs2, _, _⟩ := hwf
  refine ⟨?_, ?_, ?_, ?_⟩
  · intro h
    exact stab_enum_log_all_ok st.addr h
  · intro pre e post hsplit hok hfail
    rw [hsplit]
    exact stab_enum_log_fail pre e post hok hfail
  · apply hs2.imp
    intro x y h
    rw [addr_key_compare_lt_iff] at h
    rcases h with h | ⟨h1, h2⟩
    · exact Or.inl h
    · exact Or.inr ⟨h1, (strcmp_lt_iff x.2 y.2).mp h2⟩
  · exact addr_sorted_nodup hs2

theorem spec_C5_witness :
    stab_enum_log (fun _ _ => 0)
        (stab_set (stab_set (stab_set stab_new [99] 768) [97] 256) [98] 512).addr
      = (0, [(256, [97]), (512, [98]), (768, [99])]) ∧
    stab_enum_log (fun n _ => if n = [98] then -1 else 0)
        (stab_set (stab_set (stab_set stab_new [99] 768) [97] 256) [98] 512).addr
      = (-1, [(256, [97]), (512, [98])]) := by
  constructor
  · have h := (spec_C5
      (stab_set (stab_set (stab_set stab_new [99] 768) [97] 256) [98] 512)
      (fun _ _ => 0) (by decide)).1 (by decide)
    exact h
  · have h := (spec_C5
      (stab_set (stab_set (stab_set stab_new [99] 768) [97] 256) [98] 512)
      (fun n _ => if n = [98] then -1 else 0) (by decide)).2.1
      [(256, [97])] (512, [98]) [(768, [99])] (by decide) (by decide) (by decide)
    exact h

/-- C7 counterexample: the claim is violated by `stab_del`, which ignores the
return values of both underlying `btree_delete` calls.  From a fresh table,
`set("a", 1)` succeeds; `set("a", 2)` with a failing Address Index insert
returns `-1` and leaves the table with `sym = [("a", 1)]`, `addr = []` (the
stale entry was deleted and not restored).  On that table `delete("a")`
performs an Address Index delete that fails (not-found, flag `false`), yet the
operation returns success rather than an explicit failure result. -/
theorem spec_C7_counterexample :
    stab_set_f (stab_set stab_new [97] 1) [97] 2 [false]
        = (-1, { sym := [([97], 1)], addr := [] }) ∧
      stab_del_r { sym := [([97], 1)], addr := [] } [97]
        = some ({ sym := [], addr := [] }, true, false) ∧
      stab_del { sym := [([97], 1)], addr := [] } [97]
        = some { sym := [], addr := [] } := by
  decide

/-- C7 (amended): whenever an underlying index insert fails during `stab_set`,
the operation returns an explicit failure result and the partially applied
update is not rolled back (a failing Address Index insert leaves the stale
deletion in place; a failing Name Index insert additionally leaves the new
Address Index entry in place).  `stab_del`, by contrast, ignores the results
of the underlying index deletes: it returns exactly what the lookup phase
determined. -/
theorem spec_C7 :
    (∀ (st : Stab) (name : CStr) (v : Nat) (o : List Bool),
      stab_set_f st name v (false :: o) = (-1, stab_set_stale st name)) ∧
    (∀ (st : Stab) (name : CStr) (v : Nat) (o : List Bool),
      stab_set_f st name v (true :: false :: o) =
        (-1, { sym := (stab_set_stale st name).sym,
               addr := btree_put addr_key_compare (addr_key_init v name)
                 (stab_set_stale st name).addr })) ∧
    (∀ (st : Stab) (name : CStr) (s : Stab) (f1 f2 : Bool),
      stab_del_r st name = some (s, f1, f2) → stab_del st name = some s) := by
  refine ⟨?_, ?_, ?_⟩
  · intro st name v o
    unfold stab_set_f btree_put_f
    simp
  · intro st name v o
    unfold stab_set_f btree_put_f
    simp
  · intro st name s f1 f2 h
    unfold stab_del
    rw [h]
    rfl

theorem spec_C7_witness :
    stab_set_f stab_new [97] 7 [false] = (-1, stab_set_stale stab_new [97]) ∧
      stab_del { sym := [([97], 1)], addr := [] } [97]
        = some { sym := [], addr := [] } := by
  constructor
  · exact spec_C7.1 stab_new [97] 7 []
  · exact spec_C7.2.2 { sym := [([97], 1)], addr := [] } [97]
      { sym := [], addr := [] } true false (by decide)

/-- C9: when a query reports not-found, the caller-supplied output locations
are left unchanged: `stab_get` does not write `*value` when the name is
absent, and `stab_nearest` does not write the name buffer or `*ret_offset`
when no predecessor entry exists. -/
theorem spec_C9 (st : Stab) (name : CStr) (q v0 : Nat) (rn0 : CStr)
    (ml off0 : Nat) :
    ((stab_get_run st name v0).1 = -1 → (stab_get_run st name v0).2 = v0) ∧
    ((stab_nearest_run st q rn0 ml off0).1 = -1 →
      (stab_nearest_run st q rn0 ml off0).2 = (rn0, off0)) := by
  constructor
  · intro h
    unfold stab_get_run at h ⊢
    cases hg : sym_get (sym_key_init name) st.sym with
    | none => simp [hg]
    | some a =>
      rw [hg] at h
      cases h
  · intro h
    unfold stab_nearest_run at h ⊢
    cases hg : btree_select_le addr_key_compare (q, probe_name) st.addr with
    | none => simp [hg]
    | some y =>
      rw [hg] at h
      cases h

theorem spec_C9_witness :
    (stab_get_run stab_new [97] 9).2 = 9 ∧
      (stab_nearest_run stab_new 5 [120] 4 7).2 = ([120], 7) :=
  ⟨(spec_C9 stab_new [97] 5 9 [120] 4 7).1 (by decide),
   (spec_C9 stab_new [97] 5 9 [120] 4 7).2 (by decide)⟩

theorem stab_ext {s t : Stab} (h1 : s.sym = t.sym) (h2 : s.addr = t.addr) :
    s = t := by
  cases s
  cases t
  simp only [] at h1 h2
  rw [h1, h2]

/-- C10: a successful `stab_set` is idempotent — repeating `set(n, a)` leaves
both indexes exactly as after the first call, even though the second call
deletes and re-inserts the `(a, n)` Address Index entry rather than skipping
the no-op. -/
theorem spec_C10 (st : Stab) (n : CStr) (a : Nat) (hwf : WF st)
    (hv : validCStr n) :
    stab_set (stab_set st n a) n a = stab_set st n a := by
  obtain ⟨h1s, h1a, _, _⟩ := WF_stab_set hwf hv a
  have hget1 : sym_get (sym_key_init n) (stab_set st n a).sym = some a := by
    rw [stab_set_sym_eq]
    exact sym_get_put_self _ _ _
  apply stab_ext
  · rw [stab_set_sym_eq, stab_set_sym_eq]
    exact btree_put_idem sym_cmp_refl _ _
  · rw [stab_set_addr_eq]
    rw [stab_set_stale_some hget1]
    have hmem : ((a : Nat), sym_key_init n) ∈ (stab_set st n a).addr := by
      rw [stab_set_addr_eq]
      exact mem_btree_put_self _ _
    exact btree_put_delete_of_mem addr_key_compare_refl addr_key_compare_swap
      h1a hmem

theorem spec_C10_witness :
    stab_set (stab_set stab_new [97] 3) [97] 3 = stab_set stab_new [97] 3 :=
  spec_C10 stab_new [97] 3 (by decide) (by decide)

end StabModel
